import Mathlib

/-!
Shallow embedding of `exllamav2/exllamav2_ext/ext_stloader.cpp`.

The file has three entry points:

* `stloader_read` (lines 11-287): loads the file segment `[offset, offset+size)`
  into a destination tensor.  It first reads the whole segment with a pool of
  threads over contiguous chunks (lines 40-68), then re-reads it with strided
  block workers that push each completed block range onto a queue
  (lines 191-235), from which copy workers issue `cudaMemcpyAsync` transfers
  into device memory when the destination is not CPU memory (lines 131-186,
  237-265).

* `tensor_remap` (lines 289-314): in-place row-wise gather of a `rows x cols`
  `uint32` matrix through a column index.

* `tensor_remap_4bit` (lines 316-348): the same for a matrix packing eight
  4-bit logical elements per 32-bit word.

Machine integers (`size_t`, `uint32_t`) are modelled as `Nat`; the loader
values are only moved, never computed on, so no wrap-around arises, and the
remap arithmetic (`>>`, `&`, `|`, `<<`) is modelled with the corresponding
`Nat` bitwise operations, which agree with the 32-bit operations on in-range
values.  Fallible or undefined behaviour (scratch access out of bounds)
is modelled with `Option`.
-/

namespace Stloader

/-- Chunk size of the initial contiguous parallel read, line 41:
`chunk_size = (size + num_read_threads - 1) / num_read_threads`. -/
def chunkSize (S T : Nat) : Nat := (S + T - 1) / T

/-- Byte ranges read by the initial parallel-read threads (lines 45-66):
thread `i` reads `[i*chunk_size, min(i*chunk_size + chunk_size, size))` with a
positioned read, returning early without reading when `start >= end`. -/
def chunkRanges (S T : Nat) : List (Nat × Nat) :=
  (List.range T).filterMap (fun i =>
    if i * chunkSize S T < min (i * chunkSize S T + chunkSize S T) S then
      some (i * chunkSize S T, min (i * chunkSize S T + chunkSize S T) S)
    else none)

/-- Block ranges produced by one strided read worker (loop at lines 198-222):
starting from `pos`, while `pos < size`, emit `(pos, min (pos + B) size)` and
advance by `T * B` (`STLOADER_THREADS * STLOADER_BLOCK_SIZE`, line 220).
The conjunct `0 < T * B` reflects the positive compile-time constants
`STLOADER_THREADS` and `STLOADER_BLOCK_SIZE`, without which the C loop would
not terminate. -/
def workerBlocks (S B T : Nat) (pos : Nat) : List (Nat × Nat) :=
  if _h : 0 < T * B ∧ pos < S then
    (pos, min (pos + B) S) :: workerBlocks S B T (pos + T * B)
  else []
termination_by S - pos
decreasing_by omega

/-- Indices of the strided read workers actually spawned, line 191:
`for (size_t i = 0; i < STLOADER_THREADS && i * STLOADER_BLOCK_SIZE < size; ++i)`. -/
def spawnedWorkers (S B T : Nat) : List Nat :=
  (List.range T).takeWhile (fun i => i * B < S)

/-- All block ranges pushed onto the chunk queue across the spawned strided
read workers; worker `i` starts at `pos = i * STLOADER_BLOCK_SIZE`
(line 233). -/
def allBlocks (S B T : Nat) : List (Nat × Nat) :=
  (spawnedWorkers S B T).flatMap (fun i => workerBlocks S B T (i * B))

/-- Every byte range read from the source file during one `stloader_read`
call: the initial contiguous parallel read (lines 45-66) followed by the
strided block reads (lines 191-235). -/
def readRanges (S B T : Nat) : List (Nat × Nat) :=
  chunkRanges S T ++ allBlocks S B T

/-- Boolean test that byte `j` lies in the half-open range `r`. -/
def covers (r : Nat × Nat) (j : Nat) : Bool :=
  decide (r.1 ≤ j) && decide (j < r.2)

/-- Effect of one positioned read or one range copy: positions inside `r`
take the source's value at the same position, the rest of the buffer is
untouched (`pread` line 204, `cudaMemcpyAsync` lines 164-171). -/
def scatter (src : Nat → Nat) (buf : Nat → Nat) (r : Nat × Nat) : Nat → Nat :=
  fun j => if r.1 ≤ j ∧ j < r.2 then src j else buf j

/-- Buffer state after executing a sequence of range reads/copies in order. -/
def runWrites (src buf : Nat → Nat) (rs : List (Nat × Nat)) : Nat → Nat :=
  rs.foldl (scatter src) buf

/-- The source file's bytes over the requested segment, in destination
coordinates: position `j` holds the file byte at absolute offset
`offset + j`. -/
def fileSeg (file : Nat → Nat) (offset : Nat) : Nat → Nat :=
  fun j => file (offset + j)

/-- Which condition-variable waiters a queue push wakes. -/
inductive Notify where
  | one : Notify
  | all : Notify
  deriving DecidableEq

/-- Push events of the unused `load_worker` lambda (lines 82-124): each
iteration reads one block, pushes `(pos_a, pos_b)` and wakes all waiters
(`cv.notify_all()`, line 108), then advances by
`STLOADER_THREADS * STLOADER_BLOCK_SIZE` (line 111). -/
def load_worker (S B T : Nat) (pos : Nat) : List ((Nat × Nat) × Notify) :=
  if _h : 0 < T * B ∧ pos < S then
    ((pos, min (pos + B) S), Notify.all) :: load_worker S B T (pos + T * B)
  else []
termination_by S - pos
decreasing_by omega

/-- Push events of the inline read-worker lambda actually spawned into the
thread pool (lines 193-233): the identical loop, except that each push wakes
a single waiter (`cv.notify_one()`, line 217). -/
def inline_worker (S B T : Nat) (pos : Nat) : List ((Nat × Nat) × Notify) :=
  if _h : 0 < T * B ∧ pos < S then
    ((pos, min (pos + B) S), Notify.one) :: inline_worker S B T (pos + T * B)
  else []
termination_by S - pos
decreasing_by omega

/-- How one `stloader_read` call terminated. -/
inductive LoaderExit where
  | allocFailure : LoaderExit
  | readFailure : LoaderExit
  | loadFailure : LoaderExit
  | success : LoaderExit
  deriving DecidableEq

/-- Observable facts about one `stloader_read` call: how it exited, whether a
separate staging buffer was allocated (line 33, non-CPU destination only),
whether that buffer was freed before returning (only line 282), and how many
phase-1 read threads were started (line 45). -/
structure LoaderRun where
  exit : LoaderExit
  stagingAllocated : Bool
  stagingFreed : Bool
  readWorkersStarted : Nat
  deriving DecidableEq

/-- Control-flow skeleton of `stloader_read` (lines 19-287).
`targetCpu` is the memory-domain test of line 20; `allocOk` is whether the
`malloc` of line 33 succeeded; `readFailed` is the phase-1 failure flag
checked by `TORCH_CHECK` at line 68; `loadFailed` is the shared failure flag
checked by `TORCH_CHECK` at line 278.  On a CPU target no staging buffer is
allocated (the destination itself is used, lines 26-30).  When the `malloc`
fails, `TORCH_CHECK` at line 34 throws before any thread is created and
before any byte is written.  When either failure flag is set, the
corresponding `TORCH_CHECK` throws; the only `free(load_buffer)` is at
line 282, on the success path with a non-CPU target. -/
def stloader_flow (targetCpu allocOk readFailed loadFailed : Bool) (T : Nat) :
    LoaderRun :=
  if !targetCpu && !allocOk then
    ⟨LoaderExit.allocFailure, false, false, 0⟩
  else if readFailed then
    ⟨LoaderExit.readFailure, !targetCpu, false, T⟩
  else if loadFailed then
    ⟨LoaderExit.loadFailure, !targetCpu, false, T⟩
  else
    ⟨LoaderExit.success, !targetCpu, !targetCpu, T⟩

/-- Dense gather loop of `tensor_remap` (lines 308-311): `*a++ = temp[idx[c]]`
for each `c` in index order.  A scratch access outside the `cols`-element
buffer is undefined behaviour in the C code and is modelled as `none`. -/
def gather_loop (temp : List Nat) : List Nat → Option (List Nat)
  | [] => some []
  | i :: rest =>
      (temp[i]?).bind (fun v => (gather_loop temp rest).map (fun out => v :: out))

/-- Row loop of `tensor_remap` (lines 305-312): each row is copied into the
scratch buffer (line 307) and gathered through the index in place. -/
def remap_rows (idx : List Nat) : List (List Nat) → Option (List (List Nat))
  | [] => some []
  | row :: rest =>
      (gather_loop row idx).bind (fun row2 =>
        (remap_rows idx rest).map (fun rest2 => row2 :: rest2))

/-- `tensor_remap` (lines 289-314).  The result `some (buffer, completed)`
gives the final matrix contents and whether the function ran to completion:
on shape mismatch `TORCH_CHECK_SHAPES(tensor, 1, index, 0, 1)` (line 295)
throws before anything is written, so the matrix is returned unchanged with
`completed = false`.  `none` models an out-of-bounds scratch access
(undefined behaviour).  `cols` is `tensor.size(1)` (line 300). -/
def tensor_remap (cols : Nat) (m : List (List Nat)) (idx : List Nat) :
    Option (List (List Nat) × Bool) :=
  if idx.length = cols then
    (remap_rows idx m).map (fun m2 => (m2, true))
  else some (m, false)

/-- Nibble lookup of `tensor_remap_4bit`, lines 340-341:
`v = (temp[i / 8] >> ((i & 7) * 4)) & 0x0f`. -/
def pack_step (temp : List Nat) (i : Nat) : Option Nat :=
  (temp[i / 8]?).map (fun t => (t >>> ((i &&& 7) * 4)) &&& 0x0f)

/-- Inner loop of `tensor_remap_4bit` (lines 337-343): assemble one output
word from eight nibbles, reading the index at `c, c+1, ...` and oring each
extracted nibble into slot `b`:
`rv |= v << (b * 4)`. -/
def pack_word (temp idx : List Nat) (c b rv : Nat) : Option Nat :=
  if _h : b < 8 then
    (idx[c]?).bind (fun i =>
      (pack_step temp i).bind (fun v =>
        pack_word temp idx (c + 1) (b + 1) (rv ||| (v <<< (b * 4)))))
  else some rv
termination_by 8 - b
decreasing_by omega

/-- Outer column loop of `tensor_remap_4bit` (lines 335-344): one packed word
per group of eight logical columns, `c` advancing by 8 per word. -/
def pack_row (temp idx : List Nat) (c cols : Nat) : Option (List Nat) :=
  if h : c < cols then
    (pack_word temp idx c 0 0).bind (fun w =>
      (pack_row temp idx (c + 8) cols).map (fun out => w :: out))
  else some []
termination_by cols - c
decreasing_by omega

/-- Row loop of `tensor_remap_4bit` (lines 332-346): each row's packed words
are copied into the scratch buffer (line 334) and reassembled in place. -/
def remap4_rows (idx : List Nat) (cols : Nat) :
    List (List Nat) → Option (List (List Nat))
  | [] => some []
  | row :: rest =>
      (pack_row row idx 0 cols).bind (fun row2 =>
        (remap4_rows idx cols rest).map (fun rest2 => row2 :: rest2))

/-- `tensor_remap_4bit` (lines 316-348).  `wpr` is the packed word count
`tensor.size(1)`; the shape check `TORCH_CHECK_SHAPES(index, 0, tensor, 1, 8)`
(line 322) requires `index.size(0) = tensor.size(1) * 8` and throws before
anything is written, returning the matrix unchanged with `completed = false`.
`cols` in the source is `index.size(0)` (line 327). -/
def tensor_remap_4bit (wpr : Nat) (m : List (List Nat)) (idx : List Nat) :
    Option (List (List Nat) × Bool) :=
  if idx.length = wpr * 8 then
    (remap4_rows idx idx.length m).map (fun m2 => (m2, true))
  else some (m, false)

/-- The 4-bit field of `x` at nibble position `b` (statement vocabulary for
the packed remap claims). -/
def nibbleAt (x b : Nat) : Nat := (x >>> (b * 4)) &&& 0x0f

/-- The 4-bit value the packed remap fetches for output position `c`: the
nibble of the original row's word `idx[c] / 8` at offset `idx[c] % 8`
(statement vocabulary for the packed remap claims). -/
def srcNibble (row idx : List Nat) (c : Nat) : Nat :=
  nibbleAt (row.getD ((idx.getD c 0) / 8) 0) ((idx.getD c 0) % 8)

/-! ### Induction along a strided loop -/

theorem strideInduction (S step : Nat) (hstep : 0 < step) (motive : Nat → Prop)
    (ih : ∀ pos, (pos < S → motive (pos + step)) → motive pos) : ∀ pos, motive pos
  | pos => ih pos (fun _hlt => strideInduction S step hstep motive ih (pos + step))
termination_by pos => S - pos
decreasing_by omega

/-! ### Unfolding equations for the strided loops -/

theorem workerBlocks_pos {S B T pos : Nat} (h1 : 0 < T * B) (h2 : pos < S) :
    workerBlocks S B T pos =
      (pos, min (pos + B) S) :: workerBlocks S B T (pos + T * B) := by
  rw [workerBlocks]; exact dif_pos ⟨h1, h2⟩

theorem workerBlocks_neg {S B T pos : Nat} (h : ¬(0 < T * B ∧ pos < S)) :
    workerBlocks S B T pos = [] := by
  rw [workerBlocks]; exact dif_neg h

theorem load_worker_pos {S B T pos : Nat} (h1 : 0 < T * B) (h2 : pos < S) :
    load_worker S B T pos =
      ((pos, min (pos + B) S), Notify.all) :: load_worker S B T (pos + T * B) := by
  rw [load_worker]; exact dif_pos ⟨h1, h2⟩

theorem load_worker_neg {S B T pos : Nat} (h : ¬(0 < T * B ∧ pos < S)) :
    load_worker S B T pos = [] := by
  rw [load_worker]; exact dif_neg h

theorem inline_worker_pos {S B T pos : Nat} (h1 : 0 < T * B) (h2 : pos < S) :
    inline_worker S B T pos =
      ((pos, min (pos + B) S), Notify.one) :: inline_worker S B T (pos + T * B) := by
  rw [inline_worker]; exact dif_pos ⟨h1, h2⟩

theorem inline_worker_neg {S B T pos : Nat} (h : ¬(0 < T * B ∧ pos < S)) :
    inline_worker S B T pos = [] := by
  rw [inline_worker]; exact dif_neg h

/-! ### Membership characterisation of a strided worker's blocks -/

theorem mem_workerBlocks {S B T : Nat} (hTB : 0 < T * B) :
    ∀ pos, ∀ r ∈ workerBlocks S B T pos,
      ∃ k, r.1 = pos + k * (T * B) ∧ r.2 = min (r.1 + B) S ∧ r.1 < S := by
  refine strideInduction S (T * B) hTB _ ?_
  intro pos IH r hr
  by_cases h2 : pos < S
  · rw [workerBlocks_pos hTB h2] at hr
    rcases List.mem_cons.mp hr with rfl | htail
    · exact ⟨0, by simp, rfl, h2⟩
    · obtain ⟨k, hk1, hk2, hk3⟩ := IH h2 r htail
      refine ⟨k + 1, ?_, hk2, hk3⟩
      rw [Nat.succ_mul]; omega
  · rw [workerBlocks_neg (by omega)] at hr
    exact absurd hr (List.not_mem_nil r)

theorem workerBlocks_mem {S B T : Nat} (hTB : 0 < T * B) :
    ∀ k pos, pos + k * (T * B) < S →
      (pos + k * (T * B), min (pos + k * (T * B) + B) S) ∈ workerBlocks S B T pos := by
  intro k
  induction k with
  | zero =>
      intro pos h
      simp only [Nat.zero_mul, Nat.add_zero] at h ⊢
      rw [workerBlocks_pos hTB h]
      exact List.mem_cons_self _ _
  | succ k IHk =>
      intro pos h
      have hpos : pos < S := by
        have : pos ≤ pos + (k + 1) * (T * B) := Nat.le_add_right _ _
        omega
      have he : pos + (k + 1) * (T * B) = (pos + T * B) + k * (T * B) := by
        rw [Nat.succ_mul]; omega
      rw [workerBlocks_pos hTB hpos]
      refine List.mem_cons_of_mem _ ?_
      rw [he] at h ⊢
      exact IHk (pos + T * B) h

theorem workerBlocks_pairwise {S B T : Nat} (hB : 0 < B) (hT : 0 < T) :
    ∀ pos, (workerBlocks S B T pos).Pairwise
      (fun r r2 => r.2 ≤ r2.1 ∨ r2.2 ≤ r.1) := by
  have hTB : 0 < T * B := Nat.mul_pos hT hB
  refine strideInduction S (T * B) hTB _ ?_
  intro pos IH
  by_cases h2 : pos < S
  · rw [workerBlocks_pos hTB h2]
    refine List.Pairwise.cons ?_ (IH h2)
    intro r hr
    obtain ⟨k, hk1, _, _⟩ := mem_workerBlocks hTB _ r hr
    left
    have hBTB : B ≤ T * B := Nat.le_mul_of_pos_left B hT
    have : min (pos + B) S ≤ pos + B := Nat.min_le_left _ _
    omega
  · rw [workerBlocks_neg (by omega)]
    exact List.Pairwise.nil

/-! ### The spawned strided workers -/

theorem mem_spawnedWorkers {S B T i : Nat} (h : i ∈ spawnedWorkers S B T) :
    i < T ∧ i * B < S := by
  constructor
  · exact List.mem_range.mp ((List.takeWhile_sublist _).subset h)
  · have := List.all_eq_true.mp (List.all_takeWhile (l := List.range T)) i h
    simpa using this

theorem mem_takeWhile_of_range' (p : Nat → Bool) :
    ∀ (n s i : Nat), i ∈ List.range' s n → (∀ j, s ≤ j → j ≤ i → p j) →
      i ∈ (List.range' s n).takeWhile p := by
  intro n
  induction n with
  | zero => intro s i hi _; simp at hi
  | succ n IH =>
      intro s i hi hp
      rw [List.range'_succ] at hi ⊢
      have hsi : s ≤ i := by
        rcases List.mem_cons.mp hi with rfl | hi2
        · exact Nat.le_refl _
        · obtain ⟨k, _, rfl⟩ := List.mem_range'.mp hi2
          omega
      rw [List.takeWhile_cons_of_pos (hp s (Nat.le_refl s) hsi)]
      rcases List.mem_cons.mp hi with rfl | hi2
      · exact List.mem_cons_self _ _
      · exact List.mem_cons_of_mem _
          (IH (s + 1) i hi2 (fun j h1 h2 => hp j (by omega) h2))

theorem spawnedWorkers_mem {S B T i : Nat} (hiT : i < T)
    (hall : ∀ i2, i2 ≤ i → i2 * B < S) : i ∈ spawnedWorkers S B T := by
  rw [spawnedWorkers, List.range_eq_range']
  refine mem_takeWhile_of_range' _ T 0 i ?_ ?_
  · exact List.mem_range'.mpr ⟨i, hiT, by omega⟩
  · intro j _ h2
    exact decide_eq_true (hall j h2)

theorem spawnedWorkers_pairwise (S B T : Nat) :
    (spawnedWorkers S B T).Pairwise (· < ·) :=
  List.Pairwise.sublist (List.takeWhile_sublist _) (List.pairwise_lt_range T)

/-! ### The strided blocks partition the segment -/

theorem allBlocks_cover {S B T : Nat} (hB : 0 < B) (hT : 0 < T) :
    ∀ j < S, ∃ r ∈ allBlocks S B T, r.1 ≤ j ∧ j < r.2 := by
  intro j hj
  have hTB : 0 < T * B := Nat.mul_pos hT hB
  have hdm : B * (j / B) + j % B = j := Nat.div_add_mod j B
  have hmod : j % B < B := Nat.mod_lt _ hB
  have hcomm : (j / B) * B = B * (j / B) := Nat.mul_comm _ _
  have hmB : (j / B) * B ≤ j := by omega
  have hjm : j < (j / B) * B + B := by omega
  have he1 : j / B % T + T * (j / B / T) = j / B := Nat.mod_add_div _ _
  have he2 : (j / B % T) * B + (j / B / T) * (T * B) =
      (j / B % T + T * (j / B / T)) * B := by ring
  refine ⟨((j / B) * B, min ((j / B) * B + B) S), ?_, hmB, ?_⟩
  · rw [allBlocks, List.mem_flatMap]
    refine ⟨j / B % T, ?_, ?_⟩
    · refine spawnedWorkers_mem (Nat.mod_lt _ hT) ?_
      intro i2 hi2
      have : i2 * B ≤ (j / B) * B :=
        Nat.mul_le_mul_right B (Nat.le_trans hi2 (Nat.mod_le _ _))
      omega
    · have hlt : (j / B % T) * B + (j / B / T) * (T * B) < S := by
        rw [he2, he1]; omega
      have := workerBlocks_mem hTB (j / B / T) ((j / B % T) * B) hlt
      rw [he2, he1] at this
      exact this
  · have : j < S := hj
    omega


theorem allBlocks_pairwise {S B T : Nat} (hB : 0 < B) (hT : 0 < T) :
    (allBlocks S B T).Pairwise (fun r r2 => r.2 ≤ r2.1 ∨ r2.2 ≤ r.1) := by
  have hTB : 0 < T * B := Nat.mul_pos hT hB
  rw [allBlocks, List.pairwise_flatMap]
  constructor
  · intro i _
    exact workerBlocks_pairwise hB hT _
  · refine List.Pairwise.imp_of_mem ?_ (spawnedWorkers_pairwise S B T)
    intro i1 i2 h1 h2 hlt r hr r2 hr2
    have hi1T : i1 < T := (mem_spawnedWorkers h1).1
    have hi2T : i2 < T := (mem_spawnedWorkers h2).1
    obtain ⟨k1, e1, f1, _⟩ := mem_workerBlocks hTB _ r hr
    obtain ⟨k2, e2, f2, _⟩ := mem_workerBlocks hTB _ r2 hr2
    have m1e : r.1 = (i1 + T * k1) * B := by rw [e1]; ring
    have m2e : r2.1 = (i2 + T * k2) * B := by rw [e2]; ring
    have hne : i1 + T * k1 ≠ i2 + T * k2 := by
      intro hEq
      have q1 : (i1 + T * k1) % T = i1 := by
        rw [Nat.add_mul_mod_self_left]; exact Nat.mod_eq_of_lt hi1T
      have q2 : (i2 + T * k2) % T = i2 := by
        rw [Nat.add_mul_mod_self_left]; exact Nat.mod_eq_of_lt hi2T
      rw [hEq, q2] at q1
      omega
    have hr2a : r.2 ≤ r.1 + B := by rw [f1]; exact Nat.min_le_left _ _
    have hr2b : r2.2 ≤ r2.1 + B := by rw [f2]; exact Nat.min_le_left _ _
    rcases Nat.lt_or_ge (i1 + T * k1) (i2 + T * k2) with hlt2 | hge
    · left
      have hs : (i1 + T * k1 + 1) * B ≤ (i2 + T * k2) * B :=
        Nat.mul_le_mul_right B hlt2
      rw [Nat.succ_mul] at hs
      omega
    · right
      have hgt : i2 + T * k2 < i1 + T * k1 := by omega
      have hs : (i2 + T * k2 + 1) * B ≤ (i1 + T * k1) * B :=
        Nat.mul_le_mul_right B hgt
      rw [Nat.succ_mul] at hs
      omega

theorem allBlocks_bounds {S B T : Nat} (hB : 0 < B) (hT : 0 < T) :
    ∀ r ∈ allBlocks S B T, r.1 < r.2 ∧ r.2 ≤ S := by
  intro r hr
  have hTB : 0 < T * B := Nat.mul_pos hT hB
  rw [allBlocks, List.mem_flatMap] at hr
  obtain ⟨i, _, hr⟩ := hr
  obtain ⟨k, _, f, g⟩ := mem_workerBlocks hTB _ r hr
  rw [f]
  omega

/-- Claim C2: for every segment size `S`, block size `B` and worker count `T`
(worker `i` starting at `i*B` and advancing by `T*B`, spawned only while
`i*B < S`, block ends clipped to `S`), the block ranges pushed onto the chunk
queue by the strided read workers are exactly a partition of `[0, S)`: every
byte is covered, no two ranges overlap, and every range is nonempty and lies
inside `[0, S)` — including when `B` does not divide `S` and when
`S < T * B`. -/
theorem allBlocks_partition (S B T : Nat) (hB : 0 < B) (hT : 0 < T) :
    (∀ j < S, ∃ r ∈ allBlocks S B T, r.1 ≤ j ∧ j < r.2) ∧
    ((allBlocks S B T).Pairwise (fun r r2 => r.2 ≤ r2.1 ∨ r2.2 ≤ r.1)) ∧
    (∀ r ∈ allBlocks S B T, r.1 < r.2 ∧ r.2 ≤ S) :=
  ⟨allBlocks_cover hB hT, allBlocks_pairwise hB hT, allBlocks_bounds hB hT⟩

/-- Witness for C2 at `S = 5`, `B = 2`, `T = 2` (block size not dividing the
segment): byte 4 is covered by a pushed block. -/
theorem allBlocks_partition_witness :
    ∃ r ∈ allBlocks 5 2 2, r.1 ≤ 4 ∧ 4 < r.2 :=
  (allBlocks_partition 5 2 2 (by decide) (by decide)).1 4 (by decide)

/-! ### Counting how often a byte is covered -/

theorem covers_eq_true {r : Nat × Nat} {j : Nat} :
    covers r j = true ↔ r.1 ≤ j ∧ j < r.2 := by
  simp [covers]

theorem countP_covers_zero {j : Nat} (l : List (Nat × Nat))
    (h : ∀ r ∈ l, ¬(r.1 ≤ j ∧ j < r.2)) :
    l.countP (fun r => covers r j) = 0 :=
  List.countP_eq_zero.mpr (fun r hr hc => h r hr (covers_eq_true.mp hc))

theorem countP_covers_one {j : Nat} :
    ∀ l : List (Nat × Nat), l.Pairwise (fun r r2 => r.2 ≤ r2.1 ∨ r2.2 ≤ r.1) →
      ∀ r0 ∈ l, r0.1 ≤ j → j < r0.2 →
      l.countP (fun r => covers r j) = 1 := by
  intro l
  induction l with
  | nil => intro _ r0 h; simp at h
  | cons a l IH =>
      intro hpw r0 hr0 hj1 hj2
      rcases List.mem_cons.mp hr0 with rfl | htail
      · rw [List.countP_cons]
        have hz : l.countP (fun r => covers r j) = 0 := by
          apply countP_covers_zero
          intro r hr hc
          have hd := (List.pairwise_cons.mp hpw).1 r hr
          rcases hd with h | h <;> omega
        rw [hz, if_pos (covers_eq_true.mpr ⟨hj1, hj2⟩)]
      · have hna : ¬(covers a j = true) := by
          rw [covers_eq_true]
          have hd := (List.pairwise_cons.mp hpw).1 r0 htail
          intro hc
          rcases hd with h | h <;> omega
        rw [List.countP_cons, if_neg hna,
          IH (List.pairwise_cons.mp hpw).2 r0 htail hj1 hj2]

/-! ### The initial contiguous parallel read -/

theorem mem_chunkRanges {S T : Nat} {r : Nat × Nat} :
    r ∈ chunkRanges S T ↔ ∃ i < T,
      r = (i * chunkSize S T, min (i * chunkSize S T + chunkSize S T) S) ∧
      i * chunkSize S T < min (i * chunkSize S T + chunkSize S T) S := by
  rw [chunkRanges, List.mem_filterMap]
  constructor
  · rintro ⟨i, hi, hfi⟩
    by_cases hc : i * chunkSize S T < min (i * chunkSize S T + chunkSize S T) S
    · rw [if_pos hc, Option.some_inj] at hfi
      exact ⟨i, List.mem_range.mp hi, hfi.symm, hc⟩
    · rw [if_neg hc] at hfi
      exact absurd hfi (by simp)
  · rintro ⟨i, hiT, rfl, hlt⟩
    exact ⟨i, List.mem_range.mpr hiT, by rw [if_pos hlt]⟩

theorem chunkRanges_cover {S T : Nat} (hT : 0 < T) :
    ∀ j < S, ∃ r ∈ chunkRanges S T, r.1 ≤ j ∧ j < r.2 := by
  intro j hj
  have hS : 0 < S := by omega
  have hcs0 : 0 < chunkSize S T := by
    rw [chunkSize]
    exact (Nat.le_div_iff_mul_le hT).mpr (by omega)
  have hcsT : S ≤ chunkSize S T * T := by
    have h1 := Nat.div_add_mod (S + T - 1) T
    have h2 : (S + T - 1) % T < T := Nat.mod_lt _ hT
    have h3 : chunkSize S T * T = T * ((S + T - 1) / T) := by
      rw [chunkSize]; ring
    omega
  have hij : j / chunkSize S T * chunkSize S T ≤ j := Nat.div_mul_le_self _ _
  have hdm := Nat.div_add_mod j (chunkSize S T)
  have hmod : j % chunkSize S T < chunkSize S T := Nat.mod_lt _ hcs0
  have hco : j / chunkSize S T * chunkSize S T =
      chunkSize S T * (j / chunkSize S T) := Nat.mul_comm _ _
  have hjc : j < j / chunkSize S T * chunkSize S T + chunkSize S T := by omega
  have hiT : j / chunkSize S T < T := by
    rw [Nat.div_lt_iff_lt_mul hcs0]
    have : T * chunkSize S T = chunkSize S T * T := Nat.mul_comm _ _
    omega
  refine ⟨(j / chunkSize S T * chunkSize S T,
      min (j / chunkSize S T * chunkSize S T + chunkSize S T) S), ?_, hij, by omega⟩
  rw [mem_chunkRanges]
  exact ⟨j / chunkSize S T, hiT, rfl, by omega⟩

theorem chunkRanges_pairwise (S T : Nat) :
    (chunkRanges S T).Pairwise (fun r r2 => r.2 ≤ r2.1 ∨ r2.2 ≤ r.1) := by
  rw [chunkRanges, List.pairwise_filterMap]
  refine List.Pairwise.imp_of_mem ?_ (List.pairwise_lt_range T)
  intro i1 i2 _ _ hlt b hb b2 hb2
  by_cases hc1 : i1 * chunkSize S T < min (i1 * chunkSize S T + chunkSize S T) S
  · rw [if_pos hc1, Option.mem_def, Option.some_inj] at hb
    by_cases hc2 : i2 * chunkSize S T < min (i2 * chunkSize S T + chunkSize S T) S
    · rw [if_pos hc2, Option.mem_def, Option.some_inj] at hb2
      subst hb hb2
      left
      have hs : (i1 + 1) * chunkSize S T ≤ i2 * chunkSize S T :=
        Nat.mul_le_mul_right _ hlt
      rw [Nat.succ_mul] at hs
      have := Nat.min_le_left (i1 * chunkSize S T + chunkSize S T) S
      omega
    · rw [if_neg hc2] at hb2
      exact absurd hb2 (by simp)
  · rw [if_neg hc1] at hb
    exact absurd hb (by simp)

/-! ### Buffer contents after a sequence of reads/copies -/

theorem runWrites_cons (src buf : Nat → Nat) (r : Nat × Nat)
    (rs : List (Nat × Nat)) :
    runWrites src buf (r :: rs) = runWrites src (scatter src buf r) rs := rfl

theorem runWrites_notin (src : Nat → Nat) (j : Nat) :
    ∀ (rs : List (Nat × Nat)) (buf : Nat → Nat),
      (∀ r ∈ rs, ¬(r.1 ≤ j ∧ j < r.2)) → runWrites src buf rs j = buf j := by
  intro rs
  induction rs with
  | nil => intro buf _; rfl
  | cons r rs IH =>
      intro buf h
      rw [runWrites_cons, IH _ (fun r2 hr2 => h r2 (List.mem_cons_of_mem _ hr2))]
      simp only [scatter]
      exact if_neg (h r (List.mem_cons_self _ _))

theorem runWrites_covered (src : Nat → Nat) (j : Nat) :
    ∀ (rs : List (Nat × Nat)) (buf : Nat → Nat),
      (∃ r ∈ rs, r.1 ≤ j ∧ j < r.2) → runWrites src buf rs j = src j := by
  intro rs
  induction rs with
  | nil => rintro buf ⟨r, hr, _⟩; simp at hr
  | cons r rs IH =>
      rintro buf ⟨r0, hr0, hc⟩
      rw [runWrites_cons]
      by_cases htail : ∃ r2 ∈ rs, r2.1 ≤ j ∧ j < r2.2
      · exact IH _ htail
      · have hall : ∀ r2 ∈ rs, ¬(r2.1 ≤ j ∧ j < r2.2) :=
          fun r2 h2 hc2 => htail ⟨r2, h2, hc2⟩
        have hr0head : r0 = r := by
          rcases List.mem_cons.mp hr0 with rfl | h
          · rfl
          · exact absurd hc (hall r0 h)
        rw [runWrites_notin src j rs _ hall]
        subst hr0head
        simp only [scatter]
        exact if_pos hc

/-- Claim C1: for every valid `(offset, length)` segment and any positive
block size and read-worker count, if `stloader_read` returns successfully
then the destination's bytes over `[0, length)` equal the source file's
bytes over `[offset, offset+length)`.  Concurrency is modelled by
quantifying over arbitrary orders (permutations) in which the phase-1 chunk
reads (`ps`), the strided block reads (`ws`) and the transfer-worker copies
(`qs`) land; the transfer pool (any positive number of workers) pops each
pushed range exactly once before the call returns, and since the pushed
ranges are pairwise disjoint and a range is only popped after its own read
completed, each copy of a range sees the staging buffer's final bytes on
that range.  The first conjunct is the CPU destination (the staging buffer
is the destination, lines 26-30); the second is the device destination
reached through the copy workers. -/
theorem stloader_read_loads_segment
    (S B T offset : Nat) (file lb0 cb0 : Nat → Nat)
    (hB : 0 < B) (hT : 0 < T)
    (ps ws qs : List (Nat × Nat))
    (_hps : ps.Perm (chunkRanges S T))
    (hws : ws.Perm (allBlocks S B T))
    (hqs : qs.Perm (allBlocks S B T)) :
    ∀ j < S,
      runWrites (fileSeg file offset)
          (runWrites (fileSeg file offset) lb0 ps) ws j = file (offset + j) ∧
      runWrites
          (runWrites (fileSeg file offset)
            (runWrites (fileSeg file offset) lb0 ps) ws) cb0 qs j
        = file (offset + j) := by
  intro j hj
  obtain ⟨r, hr, hc1, hc2⟩ := allBlocks_cover hB hT j hj
  have hlb : runWrites (fileSeg file offset)
      (runWrites (fileSeg file offset) lb0 ps) ws j = file (offset + j) := by
    rw [runWrites_covered (fileSeg file offset) j ws _
      ⟨r, hws.mem_iff.mpr hr, hc1, hc2⟩]
    rfl
  refine ⟨hlb, ?_⟩
  rw [runWrites_covered _ j qs _ ⟨r, hqs.mem_iff.mpr hr, hc1, hc2⟩]
  exact hlb

/-- Witness for C1 at `S = 3`, `B = 2`, `T = 2`, `offset = 7`, with the file
byte at position `n` equal to `n + 100`, both buffers initially zero, and the
reads and pops landing in program order. -/
theorem stloader_read_loads_segment_witness :
    runWrites (fileSeg (fun n => n + 100) 7)
        (runWrites (fileSeg (fun n => n + 100) 7) (fun _ => 0) (chunkRanges 3 2))
        (allBlocks 3 2 2) 1 = (fun n => n + 100) (7 + 1) ∧
    runWrites
        (runWrites (fileSeg (fun n => n + 100) 7)
          (runWrites (fileSeg (fun n => n + 100) 7) (fun _ => 0) (chunkRanges 3 2))
          (allBlocks 3 2 2)) (fun _ => 0) (allBlocks 3 2 2) 1
      = (fun n => n + 100) (7 + 1) :=
  stloader_read_loads_segment 3 2 2 7 (fun n => n + 100) (fun _ => 0) (fun _ => 0)
    (by decide) (by decide) _ _ _ (List.Perm.refl _) (List.Perm.refl _)
    (List.Perm.refl _) 1 (by decide)

/-- Claim C3 (counterexample): it is not the case that every byte of the
requested range is read from the source file exactly once.  At `S = 2`,
`B = 1`, `T = 1`, byte 0 is read twice: once by the initial contiguous
parallel read of lines 45-66 and once by the strided block read of
lines 191-235. -/
theorem readRanges_byte_read_twice :
    (readRanges 2 1 1).countP (fun r => covers r 0) = 2 ∧
    ¬(∀ j < 2, (readRanges 2 1 1).countP (fun r => covers r j) = 1) := by
  have h1 : workerBlocks 2 1 1 0 = (0, 1) :: workerBlocks 2 1 1 1 :=
    workerBlocks_pos (by norm_num) (by norm_num)
  have h2 : workerBlocks 2 1 1 1 = (1, 2) :: workerBlocks 2 1 1 2 :=
    workerBlocks_pos (by norm_num) (by norm_num)
  have h3 : workerBlocks 2 1 1 2 = [] := workerBlocks_neg (by norm_num)
  have hsp : spawnedWorkers 2 1 1 = [0] := by decide
  have hall : allBlocks 2 1 1 = [(0, 1), (1, 2)] := by
    rw [allBlocks, hsp]
    simp only [List.flatMap_cons, List.flatMap_nil, List.append_nil, Nat.zero_mul]
    rw [h1, h2, h3]
  have hch : chunkRanges 2 1 = [(0, 2)] := by decide
  have hcount : (readRanges 2 1 1).countP (fun r => covers r 0) = 2 := by
    rw [readRanges, hch, hall]
    decide
  exact ⟨hcount, fun h => by have := h 0 (by omega); omega⟩

/-- Claim C3 (amended): every byte of the requested range `[0, S)` is read
from the source file exactly twice — once by the initial contiguous parallel
read and once by the strided block read that feeds the chunk queue — and is
transferred to the destination exactly once, the transfers being the queue's
ranges, each of which is popped and copied exactly once. -/
theorem readRanges_read_twice_transfer_once (S B T : Nat)
    (hB : 0 < B) (hT : 0 < T) :
    ∀ j < S,
      (readRanges S B T).countP (fun r => covers r j) = 2 ∧
      (allBlocks S B T).countP (fun r => covers r j) = 1 := by
  intro j hj
  obtain ⟨r1, hr1, ha1, ha2⟩ := chunkRanges_cover hT j hj
  have h1 : (chunkRanges S T).countP (fun r => covers r j) = 1 :=
    countP_covers_one _ (chunkRanges_pairwise S T) r1 hr1 ha1 ha2
  obtain ⟨r2, hr2, hb1, hb2⟩ := allBlocks_cover hB hT j hj
  have h2 : (allBlocks S B T).countP (fun r => covers r j) = 1 :=
    countP_covers_one _ (allBlocks_pairwise hB hT) r2 hr2 hb1 hb2
  refine ⟨?_, h2⟩
  rw [readRanges, List.countP_append, h1, h2]

/-- Witness for the amended C3 at `S = 3`, `B = 2`, `T = 2`, byte 1. -/
theorem readRanges_read_twice_transfer_once_witness :
    (readRanges 3 2 2).countP (fun r => covers r 1) = 2 ∧
    (allBlocks 3 2 2).countP (fun r => covers r 1) = 1 :=
  readRanges_read_twice_transfer_once 3 2 2 (by decide) (by decide) 1 (by decide)

/-! ### The two duplicate read-worker implementations -/

theorem load_worker_ranges (S B T : Nat) :
    ∀ pos, (load_worker S B T pos).map Prod.fst = workerBlocks S B T pos := by
  by_cases hTB : 0 < T * B
  · refine strideInduction S (T * B) hTB _ ?_
    intro pos IH
    by_cases h2 : pos < S
    · rw [load_worker_pos hTB h2, workerBlocks_pos hTB h2, List.map_cons, IH h2]
    · rw [load_worker_neg (by omega), workerBlocks_neg (by omega)]; rfl
  · intro pos
    rw [load_worker_neg (by omega), workerBlocks_neg (by omega)]; rfl

theorem inline_worker_ranges (S B T : Nat) :
    ∀ pos, (inline_worker S B T pos).map Prod.fst = workerBlocks S B T pos := by
  by_cases hTB : 0 < T * B
  · refine strideInduction S (T * B) hTB _ ?_
    intro pos IH
    by_cases h2 : pos < S
    · rw [inline_worker_pos hTB h2, workerBlocks_pos hTB h2, List.map_cons, IH h2]
    · rw [inline_worker_neg (by omega), workerBlocks_neg (by omega)]; rfl
  · intro pos
    rw [inline_worker_neg (by omega), workerBlocks_neg (by omega)]; rfl

theorem load_worker_notify (S B T : Nat) :
    ∀ pos, ∀ e ∈ load_worker S B T pos, e.2 = Notify.all := by
  by_cases hTB : 0 < T * B
  · refine strideInduction S (T * B) hTB _ ?_
    intro pos IH e he
    by_cases h2 : pos < S
    · rw [load_worker_pos hTB h2] at he
      rcases List.mem_cons.mp he with rfl | h
      · rfl
      · exact IH h2 e h
    · rw [load_worker_neg (by omega)] at he
      simp at he
  · intro pos e he
    rw [load_worker_neg (by omega)] at he
    simp at he

theorem inline_worker_notify (S B T : Nat) :
    ∀ pos, ∀ e ∈ inline_worker S B T pos, e.2 = Notify.one := by
  by_cases hTB : 0 < T * B
  · refine strideInduction S (T * B) hTB _ ?_
    intro pos IH e he
    by_cases h2 : pos < S
    · rw [inline_worker_pos hTB h2] at he
      rcases List.mem_cons.mp he with rfl | h
      · rfl
      · exact IH h2 e h
    · rw [inline_worker_neg (by omega)] at he
      simp at he
  · intro pos e he
    rw [inline_worker_neg (by omega)] at he
    simp at he

/-- Claim C8: the unused `load_worker` lambda (lines 82-124) and the inline
read-worker lambda spawned into the thread pool (lines 193-233) compute
identical behaviour on the same inputs: from the same segment size, block
size, thread count and starting position they read and enqueue exactly the
same sequence of `(start, end)` block ranges (the strided blocks), and they
differ only in whether each push wakes all waiters or one waiter. -/
theorem load_worker_duplicate_equiv (S B T pos : Nat) :
    (load_worker S B T pos).map Prod.fst = (inline_worker S B T pos).map Prod.fst ∧
    (inline_worker S B T pos).map Prod.fst = workerBlocks S B T pos ∧
    (∀ e ∈ load_worker S B T pos, e.2 = Notify.all) ∧
    (∀ e ∈ inline_worker S B T pos, e.2 = Notify.one) :=
  ⟨(load_worker_ranges S B T pos).trans (inline_worker_ranges S B T pos).symm,
   inline_worker_ranges S B T pos,
   load_worker_notify S B T pos,
   inline_worker_notify S B T pos⟩

/-- Claim C4 (evaluation of the code at the failing inputs): with a non-CPU
destination and a successful allocation, on both failure paths — phase-1
read failure, checked at line 68, and load/copy failure, checked at
line 278 — the staging buffer was allocated and the call exits reporting
failure, but the buffer is NOT freed: the `TORCH_CHECK` throws before the
only `free(load_buffer)` (line 282) is reached.  This contradicts the
claim (and the spec's stated invariant) that the staging buffer is freed on
every exit path; the code leaks it on every error path. -/
theorem stloader_error_paths_leak_staging :
    ((stloader_flow false true true false 4).exit = LoaderExit.readFailure ∧
     (stloader_flow false true true false 4).stagingAllocated = true ∧
     (stloader_flow false true true false 4).stagingFreed = false) ∧
    ((stloader_flow false true false true 4).exit = LoaderExit.loadFailure ∧
     (stloader_flow false true false true 4).stagingAllocated = true ∧
     (stloader_flow false true false true 4).stagingFreed = false) := by
  decide

/-- Claim C9: allocation failure in `stloader_read` and shape mismatch in
`tensor_remap` / `tensor_remap_4bit` are detected synchronously, before any
worker thread is started and before any element of the destination or the
matrix is written: the loader exits through the line-34 `TORCH_CHECK` with
zero workers started, and the remap functions return the matrix unchanged
without completing any work. -/
theorem errors_detected_synchronously
    (T cols wpr : Nat) (readFailed loadFailed : Bool)
    (m m4 : List (List Nat)) (idx idx4 : List Nat)
    (hidx : idx.length ≠ cols) (hidx4 : idx4.length ≠ wpr * 8) :
    (stloader_flow false false readFailed loadFailed T).exit
        = LoaderExit.allocFailure ∧
    (stloader_flow false false readFailed loadFailed T).readWorkersStarted = 0 ∧
    tensor_remap cols m idx = some (m, false) ∧
    tensor_remap_4bit wpr m4 idx4 = some (m4, false) := by
  refine ⟨rfl, rfl, ?_, ?_⟩
  · rw [tensor_remap, if_neg hidx]
  · rw [tensor_remap_4bit, if_neg hidx4]

/-- Witness for C9: a `1 x 2` matrix with a length-1 index, and a packed
`1 x 1` matrix with a length-3 index. -/
theorem errors_detected_synchronously_witness :
    (stloader_flow false false true false 4).exit = LoaderExit.allocFailure ∧
    (stloader_flow false false true false 4).readWorkersStarted = 0 ∧
    tensor_remap 2 [[5, 6]] [0] = some ([[5, 6]], false) ∧
    tensor_remap_4bit 1 [[7]] [0, 1, 2] = some ([[7]], false) :=
  errors_detected_synchronously 4 2 1 true false [[5, 6]] [[7]] [0] [0, 1, 2]
    (by decide) (by decide)

/-! ### The dense remap -/

theorem gather_loop_eq (temp : List Nat) :
    ∀ idx : List Nat, (∀ i ∈ idx, i < temp.length) →
      gather_loop temp idx = some (idx.map (fun i => temp.getD i 0)) := by
  intro idx
  induction idx with
  | nil => intro _; rfl
  | cons i rest IH =>
      intro h
      have hi : i < temp.length := h i (List.mem_cons_self _ _)
      simp only [gather_loop, List.map_cons]
      rw [IH (fun x hx => h x (List.mem_cons_of_mem _ hx))]
      simp [List.getD_eq_getElem?_getD, List.getElem?_eq_getElem hi]

theorem remap_rows_eq (idx : List Nat) :
    ∀ m : List (List Nat), (∀ row ∈ m, ∀ i ∈ idx, i < row.length) →
      remap_rows idx m
        = some (m.map (fun row => idx.map (fun i => row.getD i 0))) := by
  intro m
  induction m with
  | nil => intro _; rfl
  | cons row rest IH =>
      intro h
      simp only [remap_rows, List.map_cons]
      rw [gather_loop_eq row idx (h row (List.mem_cons_self _ _)),
        IH (fun r hr => h r (List.mem_cons_of_mem _ hr))]
      rfl

theorem getElem?_eq_some_getD (l : List Nat) (i : Nat) (h : i < l.length) :
    l[i]? = some (l.getD i 0) := by
  rw [List.getElem?_eq_getElem h, List.getD_eq_getElem?_getD,
    List.getElem?_eq_getElem h]
  rfl

theorem getD_map_lt (f : Nat → Nat) (l : List Nat) (c : Nat) (hc : c < l.length) :
    (l.map f).getD c 0 = f (l.getD c 0) := by
  rw [List.getD_eq_getElem?_getD, List.getD_eq_getElem?_getD, List.getElem?_map,
    List.getElem?_eq_getElem hc]
  rfl

theorem getD_map_row (g : List Nat → List Nat) (m : List (List Nat)) (r : Nat)
    (hr : r < m.length) : (m.map g).getD r [] = g (m.getD r []) := by
  rw [List.getD_eq_getElem?_getD, List.getD_eq_getElem?_getD, List.getElem?_map,
    List.getElem?_eq_getElem hr]
  rfl

/-- Claim C5: for every `rows x cols` matrix and every index of length `cols`
with entries in `[0, cols)`, `tensor_remap` completes and transforms each row
independently in place: the resulting element at `(r, c)` is the original
element at `(r, idx[c])`, and producing row `r` consults no other row — two
matrices agreeing on row `r` produce the same row `r`. -/
theorem tensor_remap_correct (cols : Nat) (m : List (List Nat)) (idx : List Nat)
    (hrows : ∀ row ∈ m, row.length = cols)
    (hlen : idx.length = cols)
    (hidx : ∀ i ∈ idx, i < cols) :
    tensor_remap cols m idx
        = some (m.map (fun row => idx.map (fun i => row.getD i 0)), true) ∧
    (∀ r, r < m.length → ∀ c, c < cols →
      ((m.map (fun row => idx.map (fun i => row.getD i 0))).getD r []).getD c 0
        = (m.getD r []).getD (idx.getD c 0) 0) ∧
    (∀ m2 M2, (∀ row ∈ m2, row.length = cols) →
      tensor_remap cols m2 idx = some (M2, true) →
      ∀ r, r < m.length → r < m2.length → m2.getD r [] = m.getD r [] →
      M2.getD r []
        = (m.map (fun row => idx.map (fun i => row.getD i 0))).getD r []) := by
  have hin : ∀ m0 : List (List Nat), (∀ row ∈ m0, row.length = cols) →
      ∀ row ∈ m0, ∀ i ∈ idx, i < row.length := by
    intro m0 h0 row hr i hi
    rw [h0 row hr]
    exact hidx i hi
  refine ⟨?_, ?_, ?_⟩
  · rw [tensor_remap, if_pos hlen, remap_rows_eq idx m (hin m hrows)]
    rfl
  · intro r hr c hc
    rw [getD_map_row _ m r hr, getD_map_lt _ idx c (by omega)]
  · intro m2 M2 hrows2 hM2 r hr hr2 heq
    rw [tensor_remap, if_pos hlen, remap_rows_eq idx m2 (hin m2 hrows2)] at hM2
    simp only [Option.map_some', Option.some_inj, Prod.mk.injEq] at hM2
    rw [← hM2.1, getD_map_row _ m r hr, getD_map_row _ m2 r hr2, heq]

/-- Witness for C5: one row `[10, 11, 12]` gathered through `[2, 0, 1]`
becomes `[12, 10, 11]`. -/
theorem tensor_remap_correct_witness :
    tensor_remap 3 [[10, 11, 12]] [2, 0, 1] = some ([[12, 10, 11]], true) := by
  rw [(tensor_remap_correct 3 [[10, 11, 12]] [2, 0, 1]
    (by decide) (by decide) (by decide)).1]
  decide

/-! ### Nibble arithmetic -/

theorem land_fifteen (x : Nat) : x &&& 15 = x % 16 := by
  have h := Nat.and_pow_two_sub_one_eq_mod x 4
  norm_num at h
  exact h

theorem land_seven (x : Nat) : x &&& 7 = x % 8 := by
  have h := Nat.and_pow_two_sub_one_eq_mod x 3
  norm_num at h
  exact h

theorem or_shift_add (a c k : Nat) (h : a < 2 ^ k) : a ||| (c <<< k) = a + c * 2 ^ k := by
  rw [Nat.shiftLeft_eq, Nat.or_comm, Nat.mul_comm c (2 ^ k),
    ← Nat.mul_add_lt_is_or h c]
  omega

theorem nibbleAt_eq (x b : Nat) : nibbleAt x b = x / 2 ^ (b * 4) % 16 := by
  rw [nibbleAt, Nat.shiftRight_eq_div_pow, land_fifteen]

theorem nibble_add_high (x v b k : Nat) (hk : k < b) :
    (x + v * 2 ^ (b * 4)) / 2 ^ (k * 4) % 16 = x / 2 ^ (k * 4) % 16 := by
  have he : b * 4 = k * 4 + 4 + (b - k - 1) * 4 := by omega
  have e2 : (2 : Nat) ^ (b * 4) = 2 ^ (k * 4) * (16 * 2 ^ ((b - k - 1) * 4)) := by
    rw [he, pow_add, pow_add]
    norm_num
    ring
  rw [e2]
  have e3 : v * (2 ^ (k * 4) * (16 * 2 ^ ((b - k - 1) * 4)))
      = (v * (2 ^ ((b - k - 1) * 4) * 16)) * 2 ^ (k * 4) := by ring
  rw [e3, Nat.add_mul_div_right _ _ (Nat.two_pow_pos _)]
  have e4 : v * (2 ^ ((b - k - 1) * 4) * 16) = (v * 2 ^ ((b - k - 1) * 4)) * 16 := by
    ring
  rw [e4, Nat.add_mul_mod_self_right]

theorem nibble_add_at (x v b : Nat) (hx : x < 2 ^ (b * 4)) (hv : v < 16) :
    (x + v * 2 ^ (b * 4)) / 2 ^ (b * 4) % 16 = v := by
  rw [Nat.add_mul_div_right _ _ (Nat.two_pow_pos _), Nat.div_eq_of_lt hx]
  simpa using Nat.mod_eq_of_lt hv

/-! ### The packed 4-bit inner loop -/

theorem pack_word_done (temp idx : List Nat) (c rv : Nat) :
    pack_word temp idx c 8 rv = some rv := by
  rw [pack_word]
  exact dif_neg (by omega)

theorem pack_word_step (temp idx : List Nat) (c b rv : Nat) (hb : b < 8)
    (hc : c < idx.length) (ht : idx.getD c 0 / 8 < temp.length) :
    pack_word temp idx c b rv
      = pack_word temp idx (c + 1) (b + 1)
          (rv |||
            ((((temp.getD (idx.getD c 0 / 8) 0) >>> (((idx.getD c 0) &&& 7) * 4))
                &&& 15) <<< (b * 4))) := by
  have h1 : idx[c]? = some (idx.getD c 0) := getElem?_eq_some_getD idx c hc
  have h2 : temp[idx.getD c 0 / 8]? = some (temp.getD (idx.getD c 0 / 8) 0) :=
    getElem?_eq_some_getD temp _ ht
  rw [pack_word, dif_pos hb, h1]
  simp only [Option.some_bind, pack_step, h2, Option.map_some']

/-- Loop invariant for `pack_word`: with `n` slots left to fill (`b + n = 8`),
index positions `c, ..., c + n - 1` readable and their scratch words in
bounds, and the low `b` nibbles already accumulated in `rv`, the loop
completes, keeps the accumulated nibbles, and fills slot `b + t` with the
nibble fetched for output position `c + t`. -/
theorem pack_word_invariant (temp idx : List Nat) :
    ∀ n, ∀ c b rv, b + n = 8 →
      c + n ≤ idx.length →
      (∀ t, t < n → idx.getD (c + t) 0 / 8 < temp.length) →
      rv < 2 ^ (b * 4) →
      ∃ w, pack_word temp idx c b rv = some w ∧ w < 2 ^ 32 ∧
        (∀ k, k < b → nibbleAt w k = nibbleAt rv k) ∧
        (∀ t, t < n → nibbleAt w (b + t) = srcNibble temp idx (c + t)) := by
  intro n
  induction n with
  | zero =>
      intro c b rv hb _ _ hrv
      have hb8 : b = 8 := by omega
      subst hb8
      refine ⟨rv, pack_word_done temp idx c rv, ?_, fun k _ => rfl,
        fun t ht => absurd ht (by omega)⟩
      norm_num at hrv ⊢
      omega
  | succ n IH =>
      intro c b rv hb hc ht hrv
      have hb8 : b < 8 := by omega
      have hv16 : ((temp.getD (idx.getD c 0 / 8) 0 >>> (((idx.getD c 0) &&& 7) * 4))
          &&& 15) < 16 := by
        rw [land_fifteen]
        exact Nat.mod_lt _ (by norm_num)
      have hstep := pack_word_step temp idx c b rv hb8 (by omega)
        (ht 0 (by omega))
      have hor : rv |||
          ((((temp.getD (idx.getD c 0 / 8) 0) >>> (((idx.getD c 0) &&& 7) * 4))
              &&& 15) <<< (b * 4))
          = rv + (((temp.getD (idx.getD c 0 / 8) 0 >>> (((idx.getD c 0) &&& 7) * 4))
              &&& 15)) * 2 ^ (b * 4) :=
        or_shift_add _ _ _ hrv
      have hbound : rv + (((temp.getD (idx.getD c 0 / 8) 0 >>>
          (((idx.getD c 0) &&& 7) * 4)) &&& 15)) * 2 ^ (b * 4)
          < 2 ^ ((b + 1) * 4) := by
        have hpow : (2 : Nat) ^ ((b + 1) * 4) = 16 * 2 ^ (b * 4) := by
          rw [show (b + 1) * 4 = b * 4 + 4 from by ring, pow_add]
          ring
        have hmul : (((temp.getD (idx.getD c 0 / 8) 0 >>>
            (((idx.getD c 0) &&& 7) * 4)) &&& 15)) * 2 ^ (b * 4)
            ≤ 15 * 2 ^ (b * 4) :=
          Nat.mul_le_mul_right _ (by omega)
        omega
      have ht2 : ∀ t, t < n → idx.getD (c + 1 + t) 0 / 8 < temp.length := by
        intro t htn
        have h := ht (t + 1) (by omega)
        have e : c + (t + 1) = c + 1 + t := by omega
        rwa [e] at h
      obtain ⟨w, hw, hwlt, hkeep, hnew⟩ :=
        IH (c + 1) (b + 1) _ (by omega) (by omega) ht2 (hor ▸ hbound)
      refine ⟨w, hstep.trans hw, hwlt, ?_, ?_⟩
      · intro k hk
        rw [hkeep k (by omega), hor, nibbleAt_eq, nibbleAt_eq]
        exact nibble_add_high rv _ b k hk
      · intro t htn
        rcases Nat.eq_zero_or_pos t with rfl | htpos
        · rw [Nat.add_zero, Nat.add_zero]
          rw [hkeep b (by omega), hor, nibbleAt_eq]
          rw [nibble_add_at rv _ b hrv hv16]
          simp only [srcNibble, nibbleAt, land_seven, land_fifteen,
            Nat.shiftRight_eq_div_pow]
        · have e1 : b + t = (b + 1) + (t - 1) := by omega
          have e2 : c + t = (c + 1) + (t - 1) := by omega
          rw [e1, e2]
          exact hnew (t - 1) (by omega)

/-! ### The packed 4-bit row and matrix loops -/

theorem getD_eq_getElem_nat (l : List Nat) (i : Nat) (h : i < l.length) :
    l.getD i 0 = l[i] := by
  rw [List.getD_eq_getElem?_getD, List.getElem?_eq_getElem h]
  rfl

theorem getD_eq_getElem_row (m : List (List Nat)) (r : Nat) (h : r < m.length) :
    m.getD r [] = m[r] := by
  rw [List.getD_eq_getElem?_getD, List.getElem?_eq_getElem h]
  rfl

theorem list_eq_of_getD {a b : List Nat} (hl : a.length = b.length)
    (h : ∀ i, i < a.length → a.getD i 0 = b.getD i 0) : a = b := by
  apply List.ext_getElem hl
  intro i h1 h2
  have hi := h i h1
  rw [getD_eq_getElem_nat a i h1, getD_eq_getElem_nat b i h2] at hi
  exact hi

theorem pack_row_run (temp idx : List Nat) :
    ∀ n c, c + n * 8 = idx.length →
      (∀ i ∈ idx, i / 8 < temp.length) →
      ∃ out, pack_row temp idx c idx.length = some out ∧ out.length = n ∧
        ∀ w, w < n → (out.getD w 0) < 2 ^ 32 ∧
          ∀ b, b < 8 →
            nibbleAt (out.getD w 0) b = srcNibble temp idx (c + w * 8 + b) := by
  intro n
  induction n with
  | zero =>
      intro c hc _
      have hnc : ¬ c < idx.length := by omega
      refine ⟨[], ?_, rfl, fun w hw => absurd hw (by omega)⟩
      rw [pack_row]
      exact dif_neg hnc
  | succ n IH =>
      intro c hc hmem
      have hclt : c < idx.length := by omega
      have htt : ∀ t, t < 8 → idx.getD (c + t) 0 / 8 < temp.length := by
        intro t htlt
        have hlt2 : c + t < idx.length := by omega
        rw [getD_eq_getElem_nat idx (c + t) hlt2]
        exact hmem _ (List.getElem_mem hlt2)
      obtain ⟨w0, hw0, hw0lt, _, hw0nib⟩ :=
        pack_word_invariant temp idx 8 c 0 0 (by omega) (by omega) htt (by norm_num)
      obtain ⟨out, hout, houtlen, houtp⟩ := IH (c + 8) (by omega) hmem
      refine ⟨w0 :: out, ?_, by simp [houtlen], ?_⟩
      · rw [pack_row, dif_pos hclt, hw0]
        simp only [Option.some_bind, hout, Option.map_some']
      · intro w hwlt
        rcases Nat.eq_zero_or_pos w with rfl | hwpos
        · refine ⟨by simpa using hw0lt, fun b hb => ?_⟩
          have e : c + 0 * 8 + b = c + b := by omega
          rw [e]
          simpa using hw0nib b hb
        · have e1 : w = (w - 1) + 1 := by omega
          obtain ⟨hbd, hnb⟩ := houtp (w - 1) (by omega)
          rw [e1, List.getD_cons_succ]
          refine ⟨hbd, fun b hb => ?_⟩
          have e2 : c + 8 + (w - 1) * 8 + b = c + ((w - 1) + 1) * 8 + b := by
            omega
          rw [← e2]
          exact hnb b hb

theorem remap4_rows_run (idx : List Nat) (wpr : Nat)
    (hlen : idx.length = wpr * 8)
    (hidx : ∀ i ∈ idx, i < wpr * 8) :
    ∀ m : List (List Nat), (∀ row ∈ m, row.length = wpr) →
      ∃ M, remap4_rows idx idx.length m = some M ∧ M.length = m.length ∧
        ∀ r, r < m.length → (M.getD r []).length = wpr ∧
          ∀ w, w < wpr → ((M.getD r []).getD w 0) < 2 ^ 32 ∧
            ∀ b, b < 8 →
              nibbleAt ((M.getD r []).getD w 0) b
                = srcNibble (m.getD r []) idx (w * 8 + b) := by
  intro m
  induction m with
  | nil => exact fun _ => ⟨[], rfl, rfl, fun r hr => absurd hr (Nat.not_lt_zero r)⟩
  | cons row rest IH =>
      intro h
      have hrow : row.length = wpr := h row (List.mem_cons_self _ _)
      have hmem : ∀ i ∈ idx, i / 8 < row.length := by
        intro i hi
        rw [hrow]
        have := hidx i hi
        omega
      obtain ⟨out, hout, hlenout, houtp⟩ := pack_row_run row idx wpr 0 (by omega) hmem
      obtain ⟨M, hM, hMlen, hMr⟩ := IH (fun r hr => h r (List.mem_cons_of_mem _ hr))
      refine ⟨out :: M, ?_, by simp [hMlen], ?_⟩
      · simp only [remap4_rows, hout, Option.some_bind, hM, Option.map_some']
      · intro r hr
        rcases r with _ | r2
        · simp only [List.getD_cons_zero]
          refine ⟨hlenout, fun w hw => ?_⟩
          obtain ⟨hbd, hnb⟩ := houtp w hw
          refine ⟨hbd, fun b hb => ?_⟩
          have e : 0 + w * 8 + b = w * 8 + b := by omega
          rw [← e]
          exact hnb b hb
        · simp only [List.getD_cons_succ]
          exact hMr r2 (by simpa using Nat.lt_of_succ_lt_succ (by simpa using hr))

/-- Claim C6: for every packed matrix of `rows x wpr` 32-bit words holding
eight 4-bit logical elements each, and every index of length `wpr * 8` with
in-range entries, `tensor_remap_4bit` completes and, for every row `r`,
output word `w` and nibble slot `b`, the output word's nibble `b` is the
4-bit value extracted from the original row's word `idx[w*8+b] / 8` at
nibble offset `idx[w*8+b] % 8` — a full logical-element permutation
performed without unpacking the row. -/
theorem tensor_remap_4bit_correct (wpr : Nat) (m : List (List Nat))
    (idx : List Nat)
    (hrows : ∀ row ∈ m, row.length = wpr)
    (hlen : idx.length = wpr * 8)
    (hidx : ∀ i ∈ idx, i < wpr * 8) :
    ∃ M, tensor_remap_4bit wpr m idx = some (M, true) ∧ M.length = m.length ∧
      ∀ r, r < m.length → (M.getD r []).length = wpr ∧
        ∀ w, w < wpr → ∀ b, b < 8 →
          nibbleAt ((M.getD r []).getD w 0) b
            = nibbleAt ((m.getD r []).getD ((idx.getD (w * 8 + b) 0) / 8) 0)
                ((idx.getD (w * 8 + b) 0) % 8) := by
  obtain ⟨M, hM, hMlen, hMr⟩ := remap4_rows_run idx wpr hlen hidx m hrows
  refine ⟨M, ?_, hMlen, ?_⟩
  · rw [tensor_remap_4bit, if_pos hlen, hM]
    rfl
  · intro r hr
    obtain ⟨hl, hp⟩ := hMr r hr
    exact ⟨hl, fun w hw b hb => (hp w hw).2 b hb⟩

/-- Witness for C6: one row packing the eight nibbles `1..8` of the word
`0x87654321`, remapped through the reversing index. -/
theorem tensor_remap_4bit_correct_witness :
    ∃ M, tensor_remap_4bit 1 [[2271560481]] [7, 6, 5, 4, 3, 2, 1, 0]
        = some (M, true) ∧ M.length = 1 := by
  obtain ⟨M, h1, h2, _⟩ := tensor_remap_4bit_correct 1 [[2271560481]]
    [7, 6, 5, 4, 3, 2, 1, 0] (by decide) (by decide) (by decide)
  exact ⟨M, h1, by simpa using h2⟩

/-! ### Identity permutation -/

theorem map_range_getD (row : List Nat) :
    (List.range row.length).map (fun i => row.getD i 0) = row := by
  apply List.ext_getElem?
  intro n
  rw [List.getElem?_map]
  by_cases hn : n < row.length
  · rw [List.getElem?_range hn, getElem?_eq_some_getD row n hn]
    rfl
  · rw [List.getElem?_eq_none (l := List.range row.length) (by simpa using hn),
      List.getElem?_eq_none (by omega)]
    rfl

theorem range_getD (n c : Nat) (h : c < n) : (List.range n).getD c 0 = c := by
  rw [List.getD_eq_getElem?_getD, List.getElem?_range h]
  rfl

theorem eq_of_nibbleAt (x y : Nat) (hx : x < 2 ^ 32) (hy : y < 2 ^ 32)
    (h : ∀ b, b < 8 → nibbleAt x b = nibbleAt y b) : x = y := by
  have h0 := h 0 (by omega)
  have h1 := h 1 (by omega)
  have h2 := h 2 (by omega)
  have h3 := h 3 (by omega)
  have h4 := h 4 (by omega)
  have h5 := h 5 (by omega)
  have h6 := h 6 (by omega)
  have h7 := h 7 (by omega)
  rw [nibbleAt_eq, nibbleAt_eq] at h0 h1 h2 h3 h4 h5 h6 h7
  norm_num at h0 h1 h2 h3 h4 h5 h6 h7 hx hy
  omega

/-- Claim C7: for the identity permutation (`idx[c] = c`), both `tensor_remap`
and `tensor_remap_4bit` complete and leave every element of every input
matrix unchanged. -/
theorem remap_identity_noop (cols wpr : Nat) (m m4 : List (List Nat))
    (hrows : ∀ row ∈ m, row.length = cols)
    (hrows4 : ∀ row ∈ m4, row.length = wpr)
    (hvals4 : ∀ row ∈ m4, ∀ x ∈ row, x < 2 ^ 32) :
    tensor_remap cols m (List.range cols) = some (m, true) ∧
    tensor_remap_4bit wpr m4 (List.range (wpr * 8)) = some (m4, true) := by
  constructor
  · have hin : ∀ row ∈ m, ∀ i ∈ List.range cols, i < row.length := by
      intro row hr i hi
      rw [hrows row hr]
      exact List.mem_range.mp hi
    rw [tensor_remap, if_pos (by simp), remap_rows_eq (List.range cols) m hin]
    simp only [Option.map_some']
    have hid : ∀ row ∈ m, (List.range cols).map (fun i => row.getD i 0) = row := by
      intro row hr
      rw [show cols = row.length from (hrows row hr).symm]
      exact map_range_getD row
    rw [List.map_congr_left hid, List.map_id']
  · obtain ⟨M, hM, hMlen, hMr⟩ := remap4_rows_run (List.range (wpr * 8)) wpr
      (by simp) (fun i hi => List.mem_range.mp hi) m4 hrows4
    rw [tensor_remap_4bit, if_pos (by simp), hM]
    simp only [Option.map_some']
    suffices hMe : M = m4 by rw [hMe]
    apply List.ext_getElem (by rw [hMlen])
    intro r hr1 hr2
    obtain ⟨hl, hp⟩ := hMr r hr2
    have hrowlen : m4[r].length = wpr := hrows4 _ (List.getElem_mem hr2)
    rw [← getD_eq_getElem_row M r hr1, ← getD_eq_getElem_row m4 r hr2]
    apply list_eq_of_getD
    · rw [hl, getD_eq_getElem_row m4 r hr2, hrowlen]
    intro w hw
    have hww : w < wpr := by rwa [hl] at hw
    obtain ⟨hbd, hnib⟩ := hp w hww
    have hwrow : w < m4[r].length := by rw [hrowlen]; exact hww
    have hylt : (m4.getD r []).getD w 0 < 2 ^ 32 := by
      rw [getD_eq_getElem_row m4 r hr2, getD_eq_getElem_nat m4[r] w hwrow]
      exact hvals4 m4[r] (List.getElem_mem hr2) _ (List.getElem_mem hwrow)
    apply eq_of_nibbleAt _ _ hbd hylt
    intro b hb
    rw [hnib b hb, srcNibble, range_getD _ _ (by omega)]
    have e1 : (w * 8 + b) / 8 = w := by omega
    have e2 : (w * 8 + b) % 8 = b := by omega
    rw [e1, e2]

/-- Witness for C7: the identity on a `1 x 2` dense matrix and on a packed
`1 x 1` matrix. -/
theorem remap_identity_noop_witness :
    tensor_remap 2 [[21, 22]] (List.range 2) = some ([[21, 22]], true) ∧
    tensor_remap_4bit 1 [[305419896]] (List.range (1 * 8))
      = some ([[305419896]], true) :=
  remap_identity_noop 2 1 [[21, 22]] [[305419896]] (by decide) (by decide)
    (by decide)

/-- Claim C10: when every entry of the index is in range — below `cols` for
`tensor_remap` and below `8 * wpr` for `tensor_remap_4bit` — every scratch
access (`temp[idx[c]]` in the dense variant, `temp[i / 8]` in the packed
variant) lands inside the scratch buffer, so the embedded functions are
total (`isSome`) and the out-of-bounds branch (`none`) is unreachable.
No injectivity or surjectivity of the index is assumed: repeated or omitted
in-range entries are covered by the same statement and merely duplicate or
discard values. -/
theorem remap_scratch_accesses_in_bounds (cols wpr : Nat)
    (m m4 : List (List Nat)) (idx idx4 : List Nat)
    (hrows : ∀ row ∈ m, row.length = cols)
    (hidx : ∀ i ∈ idx, i < cols)
    (hrows4 : ∀ row ∈ m4, row.length = wpr)
    (hidx4 : ∀ i ∈ idx4, i < wpr * 8) :
    (tensor_remap cols m idx).isSome ∧ (tensor_remap_4bit wpr m4 idx4).isSome := by
  constructor
  · rw [tensor_remap]
    by_cases hlen : idx.length = cols
    · have hin : ∀ row ∈ m, ∀ i ∈ idx, i < row.length := by
        intro row hr i hi
        rw [hrows row hr]
        exact hidx i hi
      rw [if_pos hlen, remap_rows_eq idx m hin]
      rfl
    · rw [if_neg hlen]
      rfl
  · rw [tensor_remap_4bit]
    by_cases hlen : idx4.length = wpr * 8
    · obtain ⟨M, hM, _, _⟩ := remap4_rows_run idx4 wpr hlen hidx4 m4 hrows4
      rw [if_pos hlen, hM]
      rfl
    · rw [if_neg hlen]
      rfl

/-- Witness for C10 with a non-bijective index: repeated entry `1` and
omitted entry `2` in the dense index, and a constant packed index. -/
theorem remap_scratch_accesses_in_bounds_witness :
    (tensor_remap 3 [[4, 5, 6]] [1, 1, 0]).isSome ∧
    (tensor_remap_4bit 1 [[9]] [3, 3, 3, 3, 3, 3, 3, 3]).isSome :=
  remap_scratch_accesses_in_bounds 3 1 [[4, 5, 6]] [[9]] [1, 1, 0]
    [3, 3, 3, 3, 3, 3, 3, 3] (by decide) (by decide) (by decide) (by decide)

end Stloader
